import Mathlib

/-!
Verification of the TahoeNN feed-forward neural-network engine
(src/TahoeNN.cpp) against its natural-language specification.

The C++ source is shallowly embedded: `float` is modelled by `ℝ`,
`std::vector<float>` by `List ℝ`, and every `assert` (as well as the one
out-of-bounds `operator[]` access in `StaticDataFeed`'s constructor) is
modelled by an `Option`-returning function that yields `none` exactly when
the C++ run would fail.  The three layer classes become a closed tagged
variant `Layer`; the pseudo-random stream produced by the C++ standard
library (`std::uniform_real_distribution` over a freshly default-seeded
`std::mt19937`) is external library code and is modelled by an explicit
stream parameter `gen : ℕ → ℝ`.
-/

/-- The activation applied in `FullyConnectedHiddenLayer::forwardProp`
(line 146 of the source): `output[i] = 1 / 1 + exp(-sigma[i]);`.
C ++ operator precedence parses this as `(1/1) + exp(-sigma[i])`, and Lean's
precedence parses the formula below the same way, so the embedding is
literal. -/
noncomputable def activation (x : ℝ) : ℝ := 1 / 1 + Real.exp (-x)

/-- One row of the accumulation loop of
`FullyConnectedHiddenLayer::forwardProp` (source lines 130-140): for a fixed
input index `i` with `start = i * outputDim`, the inner loop walks
`j = start + off` for `off = 0, …, outputDim - 1` and performs
`sigma[j - start] += weights[j] * input[i]`.  `fuel` counts the remaining
iterations.  The guard models the three `assert`s in the loop body
(`j - start < outputDim`, `j - start < sigma.size()`, `j < weights.size()`);
a failed assert is `none`. -/
def accumRowAux (O : ℕ) (w : List ℝ) (x : ℝ) (start : ℕ) :
    ℕ → ℕ → List ℝ → Option (List ℝ)
  | _off, 0, sigma => some sigma
  | off, fuel+1, sigma =>
    if off < O ∧ off < sigma.length ∧ start + off < w.length then
      accumRowAux O w x start (off+1) fuel
        (sigma.set off (sigma.getD off 0 + w.getD (start + off) 0 * x))
    else
      none

/-- The outer accumulation loop of `FullyConnectedHiddenLayer::forwardProp`
(source lines 128-141): iterate over the entries of `input` (note: over the
actual length of `input`, not over `inputDim`), row `i` starting at weight
index `i * outputDim`.  `i0` is the index of the first remaining entry. -/
def accumLoop (O : ℕ) (w : List ℝ) : ℕ → List ℝ → List ℝ → Option (List ℝ)
  | _i0, [], sigma => some sigma
  | i0, xi :: rest, sigma =>
    match accumRowAux O w xi (i0 * O) 0 O sigma with
    | none => none
    | some s => accumLoop O w (i0+1) rest s

/-- The pre-activation vector computed by
`FullyConnectedHiddenLayer::forwardProp`: `sigma` starts as `outputDim`
zeroes (source line 123) and is filled by the accumulation loop. -/
def sigmaOf (O : ℕ) (w input : List ℝ) : Option (List ℝ) :=
  accumLoop O w 0 input (List.replicate O 0)

/-- `FullyConnectedHiddenLayer::forwardProp` (source lines 117-174), shared
by inheritance with `FullyConnectedOutputLayer`: compute `sigma`, then map
`activation` over it (source lines 144-157).  The trailing
`assert(output[i] >= 0)` never fails since `activation x = 1 + exp (-x) > 0`,
so it is not a failure case of the embedding.  `inputDim` is unused by the
source's loop, which runs over `input.size()`. -/
noncomputable def FullyConnectedHiddenLayer.forwardProp
    (_inputDim O : ℕ) (w input : List ℝ) : Option (List ℝ) :=
  Option.map (List.map activation) (sigmaOf O w input)

/-- Models `std::vector::resize(n)`: keep the first `n` entries, pad with
zeroes up to length `n`. -/
def listResize (v : List ℝ) (n : ℕ) : List ℝ :=
  v.take n ++ List.replicate (n - v.length) 0

/-- Models `std::copy(src.begin(), src.end(), dst.begin())`: overwrite the
first `src.length` entries of `dst`. -/
def listCopy (src dst : List ℝ) : List ℝ := src ++ dst.drop src.length

/-- `InputLayer::forwardProp` (source lines 81-87): resize the caller's
output buffer to the input's size, then copy the input into it. -/
def InputLayer.forwardProp (input output : List ℝ) : List ℝ :=
  listCopy input (listResize output input.length)

/-- Models `VectorRandomInitialize` (source lines 20-29): asserts the buffer
is non-empty, then overwrites every slot with the next draw from the
distribution-over-engine stream.  The engine is a freshly default-seeded
`std::mt19937` constructed inside the call, so every call reads the same
stream `gen` from its start. -/
def VectorRandomInit (gen : ℕ → ℝ) (buf : List ℝ) : Option (List ℝ) :=
  if buf.length = 0 then none
  else some ((List.range buf.length).map gen)

/-- Models `FullyConnectedHiddenLayer::initializeWeights` (source lines
110-115): assign `inputDim * outputDim` zeroes, then hand the buffer to
`VectorRandomInitialize`. -/
def FullyConnectedHiddenLayer.initWeights (gen : ℕ → ℝ) (I O : ℕ) :
    Option (List ℝ) :=
  VectorRandomInit gen (List.replicate (I * O) 0)

/-- The closed tagged variant of the three layer classes.  `InputLayer` is
constructed with a single dimension (`BaseLayer(inputDim, inputDim)`); the
two fully-connected variants carry their weight buffer. -/
inductive Layer
  | inputLayer (dim : ℕ)
  | fullyConnectedHidden (inputDim outputDim : ℕ) (weights : List ℝ)
  | fullyConnectedOutput (inputDim outputDim : ℕ) (weights : List ℝ)

/-- `BaseLayer::InputDim`. -/
def Layer.InputDim : Layer → ℕ
  | .inputLayer d => d
  | .fullyConnectedHidden i _ _ => i
  | .fullyConnectedOutput i _ _ => i

/-- `BaseLayer::OutputDim`; the input layer has `outputDim = inputDim`. -/
def Layer.OutputDim : Layer → ℕ
  | .inputLayer d => d
  | .fullyConnectedHidden _ o _ => o
  | .fullyConnectedOutput _ o _ => o

/-- The layer's weight buffer (`BaseLayer::_weights`; empty for the input
layer, which never touches it). -/
def Layer.weights : Layer → List ℝ
  | .inputLayer _ => []
  | .fullyConnectedHidden _ _ w => w
  | .fullyConnectedOutput _ _ w => w

/-- Virtual dispatch of `forwardProp`, with the layer's state after the call
made explicit.  None of the three C++ bodies assigns to `_weights`,
`_inputDim` or `_outputDim` (they write only the locals `sigma` and the
caller's `output` buffer), so the state after the call is the state before
it.  `FullyConnectedOutputLayer` inherits the fully-connected body. -/
noncomputable def Layer.forwardPropS (l : Layer) (input : List ℝ) :
    Option (List ℝ) × Layer :=
  match l with
  | .inputLayer d => (some (InputLayer.forwardProp input []), .inputLayer d)
  | .fullyConnectedHidden i o w =>
      (FullyConnectedHiddenLayer.forwardProp i o w input,
       .fullyConnectedHidden i o w)
  | .fullyConnectedOutput i o w =>
      (FullyConnectedHiddenLayer.forwardProp i o w input,
       .fullyConnectedOutput i o w)

/-- The loop of `Trainer::validate` (source lines 276-280): walk the chain
with the running expected size `prev`, checking
`assert(prevLayerSize == layer->InputDim())` and then updating
`prev := layer->OutputDim()`. -/
def validateLoop (prev : ℕ) : List Layer → Bool
  | [] => true
  | l :: ls => (prev == l.InputDim) && validateLoop l.OutputDim ls

/-- `Trainer::validate` (source lines 268-281): assert at least two layers,
seed the expected size with the first layer's `InputDim`, then run the loop
over the whole chain (the first layer is compared against its own
`InputDim`). -/
def Trainer.validate (layers : List Layer) : Bool :=
  match layers with
  | [] => false
  | l :: ls => decide (2 ≤ (l :: ls).length) && validateLoop l.InputDim (l :: ls)

/-- One labeled sample (`struct InputData`, source lines 210-214). -/
structure InputData where
  input : List ℝ
  target : List ℝ

/-- `StaticDataFeed`'s state (source lines 225-250): the dataset and the
cursor `_currentOffset`. -/
structure StaticDataFeed where
  dataset : List InputData
  currentOffset : ℕ

/-- `StaticDataFeed`'s constructor (source lines 229-234).  Its diagnostic
print evaluates `_dataset[0]._input.size()`, an indexing operation that
cannot succeed when the dataset is empty, so construction is fallible and
fails exactly on an empty dataset. -/
def StaticDataFeed.construct (dataset : List InputData) :
    Option StaticDataFeed :=
  match dataset.head? with
  | none => none
  | some _ => some ⟨dataset, 0⟩

/-- `StaticDataFeed::getNext` (source lines 236-245): if the cursor is in
range, return the current sample and advance the cursor; otherwise report
none available and leave the state unchanged. -/
def StaticDataFeed.getNext (s : StaticDataFeed) :
    Option InputData × StaticDataFeed :=
  if h : s.currentOffset < s.dataset.length then
    (some (s.dataset.get ⟨s.currentOffset, h⟩),
     ⟨s.dataset, s.currentOffset + 1⟩)
  else
    (none, s)

/-- The feed's state after `k` calls to `getNext`. -/
def StaticDataFeed.stateAfter (s : StaticDataFeed) : ℕ → StaticDataFeed
  | 0 => s
  | k+1 => ((StaticDataFeed.stateAfter s k).getNext).2

/- ------------------------------------------------------------------ -/
/- Helper lemmas.                                                      -/
/- ------------------------------------------------------------------ -/

lemma getD_set_self (l : List ℝ) (i : ℕ) (v : ℝ) (h : i < l.length) :
    (l.set i v).getD i 0 = v := by
  induction l generalizing i with
  | nil => simp at h
  | cons a t ih =>
    cases i with
    | zero => simp
    | succ j => simpa using ih j (by simpa using h)

lemma getD_set_other (l : List ℝ) (i j : ℕ) (v : ℝ) (h : i ≠ j) :
    (l.set i v).getD j 0 = l.getD j 0 := by
  induction l generalizing i j with
  | nil => simp
  | cons a t ih =>
    cases i with
    | zero =>
      cases j with
      | zero => exact absurd rfl h
      | succ j' => simp
    | succ i' =>
      cases j with
      | zero => simp
      | succ j' => simpa using ih i' j' (fun hc => h (by rw [hc]))

lemma accumRowAux_some (O : ℕ) (w : List ℝ) (x : ℝ) (start : ℕ) :
    ∀ (fuel off : ℕ) (sigma : List ℝ), off + fuel ≤ O →
      off + fuel ≤ sigma.length →
      (start + off + fuel ≤ w.length ∨ fuel = 0) →
      ∃ s, accumRowAux O w x start off fuel sigma = some s ∧
        s.length = sigma.length ∧
        ∀ m, s.getD m 0 = sigma.getD m 0 +
          (if off ≤ m ∧ m < off + fuel then w.getD (start + m) 0 * x else 0)
  | 0, off, sigma, _, _, _ =>
      ⟨sigma, rfl, rfl, fun m => by simp [accumRowAux]⟩
  | fuel+1, off, sigma, h1, h2, h3 => by
    have hw : start + off + (fuel + 1) ≤ w.length := by
      rcases h3 with h3 | h3
      · exact h3
      · omega
    have hcond : off < O ∧ off < sigma.length ∧ start + off < w.length :=
      ⟨by omega, by omega, by omega⟩
    have hlen : (sigma.set off (sigma.getD off 0 + w.getD (start + off) 0 * x)).length
        = sigma.length := by simp
    obtain ⟨s, hs, hsl, hsm⟩ :=
      accumRowAux_some O w x start fuel (off+1)
        (sigma.set off (sigma.getD off 0 + w.getD (start + off) 0 * x))
        (by omega) (by rw [hlen]; omega) (by omega)
    refine ⟨s, ?_, by rw [hsl, hlen], ?_⟩
    · rw [accumRowAux, if_pos hcond]
      exact hs
    · intro m
      rcases eq_or_ne m off with hm | hm
      · subst hm
        rw [hsm m]
        rw [getD_set_self sigma m _ hcond.2.1]
        have : ¬ (m + 1 ≤ m ∧ m < m + 1 + fuel) := by omega

        rw [if_neg this, if_pos (by omega : m ≤ m ∧ m < m + (fuel + 1))]
        ring
      · rw [hsm m, getD_set_other sigma off m _ (Ne.symm hm)]
        congr 1
        by_cases hcase : off + 1 ≤ m ∧ m < off + 1 + fuel
        · rw [if_pos hcase, if_pos (by omega)]
        · rw [if_neg hcase, if_neg (by omega)]

lemma accumRowAux_none (O : ℕ) (w : List ℝ) (x : ℝ) (start : ℕ) :
    ∀ (fuel off : ℕ) (sigma : List ℝ), off + fuel ≤ O →
      off + fuel ≤ sigma.length →
      w.length < start + off + fuel → 0 < fuel →
      accumRowAux O w x start off fuel sigma = none
  | 0, _, _, _, _, _, hf => absurd hf (by omega)
  | fuel+1, off, sigma, h1, h2, h3, _ => by
    by_cases hcond : off < O ∧ off < sigma.length ∧ start + off < w.length
    · have hfuel : 0 < fuel := by omega
      have hlen : (sigma.set off (sigma.getD off 0 + w.getD (start + off) 0 * x)).length
          = sigma.length := by simp
      rw [accumRowAux, if_pos hcond]
      exact accumRowAux_none O w x start fuel (off+1) _
        (by omega) (by rw [hlen]; omega) (by omega) hfuel
    · rw [accumRowAux, if_neg hcond]

lemma accumLoop_some (O : ℕ) (w : List ℝ) :
    ∀ (input : List ℝ) (i0 : ℕ) (sigma : List ℝ), sigma.length = O →
      (i0 + input.length) * O ≤ w.length →
      ∃ s, accumLoop O w i0 input sigma = some s ∧ s.length = O ∧
        ∀ m, s.getD m 0 = sigma.getD m 0 +
          (if m < O then
            ∑ k in Finset.range input.length,
              w.getD ((i0 + k) * O + m) 0 * input.getD k 0
          else 0)
  | [], i0, sigma, hl, _ => ⟨sigma, rfl, hl, fun m => by simp [accumLoop]⟩
  | xi :: rest, i0, sigma, hl, hw => by
    have hrow : i0 * O + 0 + O ≤ w.length ∨ O = 0 := by
      left
      calc i0 * O + 0 + O = (i0 + 1) * O := by ring
      _ ≤ (i0 + (rest.length + 1)) * O := Nat.mul_le_mul_right O (by omega)
      _ ≤ w.length := by simpa using hw
    obtain ⟨s1, hs1, hs1l, hs1m⟩ :=
      accumRowAux_some O w xi (i0 * O) O 0 sigma (by omega) (by omega) hrow
    obtain ⟨s, hs, hsl, hsm⟩ :=
      accumLoop_some O w rest (i0 + 1) s1 (by rw [hs1l, hl])
        (by calc (i0 + 1 + rest.length) * O
              = (i0 + (rest.length + 1)) * O := by ring
            _ ≤ w.length := by simpa using hw)
    refine ⟨s, ?_, hsl, ?_⟩
    · rw [accumLoop, hs1]
      exact hs
    · intro m
      rw [hsm m, hs1m m]
      by_cases hm : m < O
      · rw [if_pos hm, if_pos hm, if_pos (by omega : 0 ≤ m ∧ m < 0 + O)]
        rw [add_assoc]
        congr 1
        rw [List.length_cons, Finset.sum_range_succ']
        simp only [List.getD_cons_succ, List.getD_cons_zero, Nat.add_zero]
        rw [add_comm]
        congr 1
        apply Finset.sum_congr rfl
        intro k _
        have he : (i0 + 1 + k) * O + m = (i0 + (k + 1)) * O + m := by ring
        rw [he]
      · rw [if_neg hm, if_neg hm, if_neg (by omega : ¬ (0 ≤ m ∧ m < 0 + O))]
        ring

lemma accumLoop_none (O : ℕ) (w : List ℝ) (hO : 0 < O) :
    ∀ (input : List ℝ) (i0 : ℕ) (sigma : List ℝ), sigma.length = O →
      (∃ k, k < input.length ∧ w.length < (i0 + k + 1) * O) →
      accumLoop O w i0 input sigma = none
  | [], _, _, _, hex => by
    obtain ⟨k, hk, _⟩ := hex
    exact absurd hk (by simp)
  | xi :: rest, i0, sigma, hl, hex => by
    obtain ⟨k, hk, hkw⟩ := hex
    by_cases hfirst : w.length < (i0 + 1) * O
    · have : accumRowAux O w xi (i0 * O) 0 O sigma = none := by
        apply accumRowAux_none O w xi (i0 * O) O 0 sigma (by omega) (by omega)
          (by calc w.length < (i0 + 1) * O := hfirst
              _ = i0 * O + 0 + O := by ring) hO
      rw [accumLoop, this]
    · have hk0 : k ≠ 0 := by
        intro h0
        rw [h0] at hkw
        exact hfirst (by simpa using hkw)
      push_neg at hfirst
      have hrow : i0 * O + 0 + O ≤ w.length := by
        calc i0 * O + 0 + O = (i0 + 1) * O := by ring
        _ ≤ w.length := hfirst
      obtain ⟨s1, hs1, hs1l, _⟩ :=
        accumRowAux_some O w xi (i0 * O) O 0 sigma (by omega) (by omega)
          (Or.inl hrow)
      rw [accumLoop, hs1]
      exact accumLoop_none O w hO rest (i0 + 1) s1 (by rw [hs1l, hl])
        ⟨k - 1, by simp at hk; omega,
         by have : (i0 + 1 + (k - 1) + 1) * O = (i0 + k + 1) * O := by
              congr 1; omega
            rw [this]; exact hkw⟩

lemma eq_replicate_zero_of_getD (l : List ℝ) (n : ℕ) (hl : l.length = n)
    (h : ∀ m, m < n → l.getD m 0 = 0) : l = List.replicate n 0 := by
  apply List.ext_get
  · simpa using hl
  · intro i h1 h2
    have hi : i < n := by simpa [hl] using h1
    have := h i hi
    rw [List.getD_eq_getElem l 0 h1] at this
    simp [this]

lemma getD_map_activation (l : List ℝ) (j : ℕ) (hj : j < l.length) :
    (l.map activation).getD j 0 = activation (l.getD j 0) := by
  rw [List.getD_eq_getElem _ _ (by simpa using hj), List.getElem_map,
    List.getD_eq_getElem _ _ hj]

/- ------------------------------------------------------------------ -/
/- Claim theorems.                                                     -/
/- ------------------------------------------------------------------ -/

/-- Claim C2: for a fully-connected layer with dimensions `inputDim = I` and
`outputDim = O`, for every input of length `I` (and a weight buffer holding
at least the `I * O` entries the loops address), `forwardProp` computes a
pre-activation vector `sigma` of length `O` with
`sigma[j] = ∑ i < I, weights[i * O + j] * input[i]` (row-major dot-product
accumulation), the returned output vector has length `O`, and for an
all-zero input `sigma` is all zero regardless of the weights. -/
theorem fc_forwardProp_sigma_spec (I O : ℕ) (w input : List ℝ)
    (hin : input.length = I) (hw : I * O ≤ w.length) :
    ∃ sigma out, sigmaOf O w input = some sigma ∧
      FullyConnectedHiddenLayer.forwardProp I O w input = some out ∧
      sigma.length = O ∧ out.length = O ∧
      (∀ j, j < O → sigma.getD j 0 =
        ∑ i in Finset.range I, w.getD (i * O + j) 0 * input.getD i 0) ∧
      (input = List.replicate I 0 → sigma = List.replicate O 0) := by
  obtain ⟨s, hs, hsl, hsm⟩ := accumLoop_some O w input 0 (List.replicate O 0)
    (by simp) (by simpa [hin] using hw)
  refine ⟨s, s.map activation, hs, ?_, hsl, by simp [hsl], ?_, ?_⟩
  · simp [FullyConnectedHiddenLayer.forwardProp, sigmaOf, hs]
  · intro j hj
    have hj2 := hsm j
    rw [if_pos hj] at hj2
    simpa [hin, List.getElem?_getD_replicate_default_eq] using hj2
  · intro hzero
    apply eq_replicate_zero_of_getD s O hsl
    intro m hm
    have hm2 := hsm m
    rw [if_pos hm] at hm2
    rw [hm2]
    simp [hzero, List.getElem?_getD_replicate_default_eq]

/-- Witness for C2 at `I = 1`, `O = 1`, `weights = [2]`, `input = [3]`. -/
theorem fc_forwardProp_sigma_spec_witness :
    ∃ sigma out, sigmaOf 1 [(2:ℝ)] [(3:ℝ)] = some sigma ∧
      FullyConnectedHiddenLayer.forwardProp 1 1 [(2:ℝ)] [(3:ℝ)] = some out ∧
      sigma.length = 1 ∧ out.length = 1 ∧
      (∀ j, j < 1 → sigma.getD j 0 =
        ∑ i in Finset.range 1,
          ([(2:ℝ)]).getD (i * 1 + j) 0 * ([(3:ℝ)]).getD i 0) ∧
      ([(3:ℝ)] = List.replicate 1 0 → sigma = List.replicate 1 0) :=
  fc_forwardProp_sigma_spec 1 1 [(2:ℝ)] [(3:ℝ)] rfl (by norm_num)

/-- Claim C10: the accumulation loop of `forwardProp` runs over the actual
input length rather than `inputDim`.  With an initialized weight buffer
(length `I * O`, `O > 0`): every strictly shorter input succeeds, the output
being computed from only the supplied entries (weight rows beyond the input
length contribute nothing), while every strictly longer input violates the
weight-index bounds assertion inside the loop (modelled as `none`). -/
theorem fc_forwardProp_input_length_behavior (I O : ℕ) (w input : List ℝ)
    (hw : w.length = I * O) (hO : 0 < O) :
    (input.length < I →
      ∃ out, FullyConnectedHiddenLayer.forwardProp I O w input = some out ∧
        out.length = O ∧
        ∀ j, j < O → out.getD j 0 = activation
          (∑ i in Finset.range input.length,
            w.getD (i * O + j) 0 * input.getD i 0)) ∧
    (I < input.length →
      FullyConnectedHiddenLayer.forwardProp I O w input = none) := by
  constructor
  · intro hshort
    obtain ⟨s, hs, hsl, hsm⟩ := accumLoop_some O w input 0 (List.replicate O 0)
      (by simp)
      (by rw [hw]
          simpa using Nat.mul_le_mul_right O (show input.length ≤ I by omega))
    refine ⟨s.map activation,
      by simp [FullyConnectedHiddenLayer.forwardProp, sigmaOf, hs],
      by simp [hsl], ?_⟩
    intro j hj
    rw [getD_map_activation s j (by omega)]
    congr 1
    have hj2 := hsm j
    rw [if_pos hj] at hj2
    simpa [List.getElem?_getD_replicate_default_eq] using hj2
  · intro hlong
    have hnone : accumLoop O w 0 input (List.replicate O 0) = none := by
      apply accumLoop_none O w hO input 0 _ (by simp)
      refine ⟨I, hlong, ?_⟩
      rw [hw]
      calc I * O < I * O + O := by omega
      _ = (0 + I + 1) * O := by ring
    simp [FullyConnectedHiddenLayer.forwardProp, sigmaOf, hnone]

/-- Witness for C10 at `I = 2`, `O = 1`, `weights = [1, 2]`,
`input = [0, 0, 0]` (input longer than `inputDim`). -/
theorem fc_forwardProp_input_length_behavior_witness :
    FullyConnectedHiddenLayer.forwardProp 2 1 [(1:ℝ), 2] [0, 0, 0] = none :=
  (fc_forwardProp_input_length_behavior 2 1 [(1:ℝ), 2] [0, 0, 0]
    rfl (by norm_num)).2 (by norm_num)

/-- Claim C1 is refuted by the code (code bug): the source's comment says it
applies "the sigmoid function", whose values lie in (0, 1), but line 146
reads `output[i] = 1 / 1 + exp(-sigma[i]);`, which C precedence parses as
`(1/1) + exp(-sigma[i]) = 1 + exp(-sigma[i])`.  Every activation value
therefore exceeds 1 and never lies in (0, 1): at the concrete layer
`inputDim = outputDim = 1`, `weights = [1/2]`, `input = [0]`, the produced
output is `[2]`. -/
theorem fc_activation_exceeds_one :
    (∀ x : ℝ, 1 < activation x) ∧
    FullyConnectedHiddenLayer.forwardProp 1 1 [(1:ℝ)/2] [0] = some [2] ∧
    (2:ℝ) ∉ Set.Ioo (0:ℝ) 1 := by
  refine ⟨?_, ?_, ?_⟩
  · intro x
    have h := Real.exp_pos (-x)
    rw [activation]
    norm_num
    linarith
  · have h1 : FullyConnectedHiddenLayer.forwardProp 1 1 [(1:ℝ)/2] [0]
        = some [activation 0] := by
      norm_num [FullyConnectedHiddenLayer.forwardProp, sigmaOf, accumLoop,
        accumRowAux]
    rw [h1]
    norm_num [activation, Real.exp_zero]
  · simp only [Set.mem_Ioo]
    norm_num

/-- Claim C4: for positive dimensions, after weight initialization the
buffer has exactly `inputDim * outputDim` entries, each in [0, 1) (the
bound is the contract of the uniform distribution the source draws from,
carried by the hypothesis on the stream `gen`); a zero-length
initialization request fails the assert in `VectorRandomInitialize`. -/
theorem fc_initWeights_spec (gen : ℕ → ℝ) (I O : ℕ)
    (hI : 0 < I) (hO : 0 < O) (hgen : ∀ k, 0 ≤ gen k ∧ gen k < 1) :
    (∃ w, FullyConnectedHiddenLayer.initWeights gen I O = some w ∧
      w.length = I * O ∧ ∀ v ∈ w, 0 ≤ v ∧ v < 1) ∧
    (∀ buf : List ℝ, buf.length = 0 → VectorRandomInit gen buf = none) := by
  constructor
  · have hpos : ¬ (List.replicate (I * O) (0:ℝ)).length = 0 := by
      simp [Nat.mul_eq_zero]
      omega
    refine ⟨(List.range (I * O)).map gen, ?_, by simp, ?_⟩
    · rw [FullyConnectedHiddenLayer.initWeights, VectorRandomInit, if_neg hpos]
      simp
    · intro v hv
      obtain ⟨k, _, hk⟩ := List.mem_map.mp hv
      rw [← hk]
      exact hgen k
  · intro buf hb
    rw [VectorRandomInit, if_pos hb]

/-- Witness for C4 at `gen = const 0`, `I = O = 1`. -/
theorem fc_initWeights_spec_witness :
    (∃ w, FullyConnectedHiddenLayer.initWeights (fun _ => 0) 1 1 = some w ∧
      w.length = 1 * 1 ∧ ∀ v ∈ w, 0 ≤ v ∧ v < 1) ∧
    (∀ buf : List ℝ, buf.length = 0 →
      VectorRandomInit (fun _ => 0) buf = none) :=
  fc_initWeights_spec (fun _ => 0) 1 1 (by norm_num) (by norm_num)
    (fun _ => ⟨le_refl 0, by norm_num⟩)

/-- Claim C9: weight initialization is fully deterministic.  The source
constructs a freshly default-seeded mt19937 engine inside every call, so
every call reads the same stream `gen` from its start: two calls with
buffers of equal size produce identical values (so any two weighted layers
whose buffers have equal size receive identical weights), and a shorter
buffer receives a prefix of a longer buffer's values. -/
theorem vectorRandomInit_deterministic (gen : ℕ → ℝ) (b1 b2 : List ℝ)
    (h1 : 0 < b1.length) (hle : b1.length ≤ b2.length) :
    (∃ v w2, VectorRandomInit gen b1 = some v ∧
      VectorRandomInit gen b2 = some w2 ∧
      v = w2.take b1.length ∧ (b1.length = b2.length → v = w2)) ∧
    (∀ I O I2 O2 : ℕ, I * O = I2 * O2 →
      FullyConnectedHiddenLayer.initWeights gen I O =
        FullyConnectedHiddenLayer.initWeights gen I2 O2) := by
  constructor
  · refine ⟨(List.range b1.length).map gen, (List.range b2.length).map gen,
      ?_, ?_, ?_, ?_⟩
    · rw [VectorRandomInit, if_neg (by omega)]
    · rw [VectorRandomInit, if_neg (by omega)]
    · rw [← List.map_take, List.take_range]
      have hmin : min b1.length b2.length = b1.length := by omega
      rw [hmin]
    · intro heq
      rw [heq]
  · intro I O I2 O2 h
    rw [FullyConnectedHiddenLayer.initWeights,
      FullyConnectedHiddenLayer.initWeights, h]

/-- Witness for C9 at `gen = const 0`, buffers of sizes 1 and 2. -/
theorem vectorRandomInit_deterministic_witness :
    (∃ v w2, VectorRandomInit (fun _ => 0) [(5:ℝ)] = some v ∧
      VectorRandomInit (fun _ => 0) [(5:ℝ), 6] = some w2 ∧
      v = w2.take ([(5:ℝ)]).length ∧
      (([(5:ℝ)]).length = ([(5:ℝ), 6]).length → v = w2)) ∧
    (∀ I O I2 O2 : ℕ, I * O = I2 * O2 →
      FullyConnectedHiddenLayer.initWeights (fun _ => 0) I O =
        FullyConnectedHiddenLayer.initWeights (fun _ => 0) I2 O2) :=
  vectorRandomInit_deterministic (fun _ => 0) [(5:ℝ)] [(5:ℝ), 6]
    (by norm_num) (by norm_num)

/-- Claim C5: the passthrough input layer's forwardProp returns the input
unchanged (identity), for every prior content of the caller's output
buffer, and the output length equals the input length. -/
theorem inputLayer_forwardProp_identity (input output : List ℝ) :
    InputLayer.forwardProp input output = input ∧
    (InputLayer.forwardProp input output).length = input.length := by
  have h : InputLayer.forwardProp input output = input := by
    rw [InputLayer.forwardProp, listCopy]
    have hlen : (listResize output input.length).length = input.length := by
      rw [listResize]
      simp
      omega
    rw [List.drop_eq_nil_of_le (by rw [hlen]), List.append_nil]
  exact ⟨h, by rw [h]⟩

lemma validateLoop_eq_true_iff (ls : List Layer) : ∀ prev,
    validateLoop prev ls = true ↔
      ((∀ y ∈ ls.head?, y.InputDim = prev) ∧
        List.Chain' (fun a b => a.OutputDim = b.InputDim) ls) := by
  induction ls with
  | nil =>
    intro prev
    simp [validateLoop]
  | cons x xs ih =>
    intro prev
    rw [validateLoop, Bool.and_eq_true, beq_iff_eq, ih x.OutputDim,
      List.chain'_cons']
    constructor
    · rintro ⟨hh1, hh2, hh3⟩
      refine ⟨?_, ?_, hh3⟩
      · intro y hy
        simp only [List.head?_cons, Option.mem_def, Option.some.injEq] at hy
        rw [← hy, ← hh1]
      · intro y hy
        exact (hh2 y hy).symm
    · rintro ⟨hh1, hh2, hh3⟩
      refine ⟨?_, ?_, hh3⟩
      · exact (hh1 x (by simp)).symm
      · intro y hy
        exact (hh2 y hy).symm

/-- Claim C3: `Trainer::validate` succeeds iff the chain has length at
least 2 and, walking the chain in order with the running expected size,
every layer's `InputDim` matches — equivalently, every adjacent pair of
layers has `OutputDim` of the first equal to `InputDim` of the second.
Every chain violating the length bound or adjacency fails. -/
theorem trainer_validate_iff (layers : List Layer) :
    Trainer.validate layers = true ↔
      (2 ≤ layers.length ∧
        List.Chain' (fun a b => a.OutputDim = b.InputDim) layers) := by
  cases layers with
  | nil => simp [Trainer.validate]
  | cons l ls =>
    rw [Trainer.validate, Bool.and_eq_true, decide_eq_true_eq,
      validateLoop_eq_true_iff]
    constructor
    · rintro ⟨hh1, _, hh3⟩
      exact ⟨hh1, hh3⟩
    · rintro ⟨hh1, hh3⟩
      refine ⟨hh1, ?_, hh3⟩
      intro y hy
      simp only [List.head?_cons, Option.mem_def, Option.some.injEq] at hy
      rw [← hy]

/-- Claim C7: constructing a StaticDataFeed from an empty collection fails
at the point of construction (the constructor's diagnostic
`_dataset[0]._input.size()` cannot be evaluated on an empty dataset), while
construction from any non-empty collection succeeds with the cursor at 0. -/
theorem staticDataFeed_construct_empty_fails :
    StaticDataFeed.construct [] = none ∧
    ∀ d ds, StaticDataFeed.construct (d :: ds) = some ⟨d :: ds, 0⟩ :=
  ⟨rfl, fun _ _ => rfl⟩

/-- Claim C8: a forward pass by itself mutates no hidden state: for every
layer variant and input, the layer after forwardProp equals the layer
before (in particular the weight buffer is unchanged), and a second call
with the same input yields the identical output. -/
theorem layer_forwardProp_no_mutation (l : Layer) (input : List ℝ) :
    (l.forwardPropS input).2 = l ∧
    (l.forwardPropS input).2.weights = l.weights ∧
    ((l.forwardPropS input).2.forwardPropS input).1 =
      (l.forwardPropS input).1 := by
  cases l <;> simp [Layer.forwardPropS, Layer.weights]

lemma construct_some (dataset : List InputData) (s : StaticDataFeed)
    (h : StaticDataFeed.construct dataset = some s) :
    s = ⟨dataset, 0⟩ ∧ 0 < dataset.length := by
  cases dataset with
  | nil => simp [StaticDataFeed.construct] at h
  | cons d ds =>
    refine ⟨?_, by simp⟩
    have h2 : (some ⟨d :: ds, 0⟩ : Option StaticDataFeed) = some s := h
    exact (Option.some.injEq _ _ ▸ h2).symm

lemma stateAfter_construct (dataset : List InputData) (k : ℕ) :
    StaticDataFeed.stateAfter ⟨dataset, 0⟩ k =
      ⟨dataset, min k dataset.length⟩ := by
  induction k with
  | zero => simp [StaticDataFeed.stateAfter]
  | succ k ih =>
    rw [StaticDataFeed.stateAfter, ih, StaticDataFeed.getNext]
    by_cases h : min k dataset.length < dataset.length
    · rw [dif_pos h]
      simp only [StaticDataFeed.mk.injEq]
      exact ⟨trivial, by omega⟩
    · rw [dif_neg h]
      simp only [StaticDataFeed.mk.injEq]
      exact ⟨trivial, by omega⟩

/-- Claim C6: a StaticDataFeed constructed over N ≥ 1 samples returns, on
its (k+1)-st getNext call, exactly the k-th sample of the original dataset
— the first N calls yield the samples in original order with no reordering
and no duplication, and every later call reports none available. -/
theorem staticDataFeed_getNext_in_order (dataset : List InputData)
    (s0 : StaticDataFeed) (h : StaticDataFeed.construct dataset = some s0)
    (k : ℕ) :
    ((StaticDataFeed.stateAfter s0 k).getNext).1 = dataset[k]? := by
  obtain ⟨hs, _⟩ := construct_some dataset s0 h
  subst hs
  rw [stateAfter_construct]
  by_cases hk : k < dataset.length
  · have hmin : min k dataset.length = k := by omega
    rw [hmin, StaticDataFeed.getNext, dif_pos hk]
    rw [List.getElem?_eq_getElem hk]
    simp [List.get_eq_getElem]
  · have hmin : min k dataset.length = dataset.length := by omega
    rw [hmin, StaticDataFeed.getNext, dif_neg (by simp)]
    exact (List.getElem?_eq_none (by omega)).symm

/-- Witness for C6 on the one-sample dataset, second call (exhausted). -/
theorem staticDataFeed_getNext_in_order_witness :
    ((StaticDataFeed.stateAfter ⟨[⟨[1], [0]⟩], 0⟩ 1).getNext).1 =
      ([⟨[1], [0]⟩] : List InputData)[1]? :=
  staticDataFeed_getNext_in_order [⟨[1], [0]⟩] ⟨[⟨[1], [0]⟩], 0⟩ rfl 1
